import Mathlib

/-!
# GameThing — verification of spec claims against the source

Shallow embedding of the server packaging pipeline (`src/server/manifest.py`,
`src/server/chunk.py`) and the client download engine
(`src/client/downloader.py`).  File contents are modelled as `List Nat`
(byte sequences), file names as `List Char` where the claims depend on the
characters, and as `String` elsewhere.  SHA-256 itself is not interpreted:
hashing claims are settled on the exact byte stream fed into the single
SHA-256 state, since equal streams give equal digests and the digests are
opaque otherwise.
-/

namespace GameThing

/-! ## Constants (`src/server/manifest.py`, lines 8–10;
`src/client/downloader.py`, lines 18–19). -/

def PREFERRED_CHUNK_SIZE : Nat := 8 * 1024 * 1024

def LARGE_FILE_SIZE : Nat := 32 * 1024 * 1024

def HASH_CHUNK_SIZE : Nat := 1024 * 1024

def DOWNLOAD_CHUNK_SIZE : Nat := 1024 * 1024

/-! ## `split_file` (`src/server/chunk.py`, lines 14–28)

The `while` loop reads `PREFERRED_CHUNK_SIZE` bytes at a time and writes each
non-empty read to `<name>.part<i>`.  The loop is embedded with an explicit
fuel argument equal to the input length, which bounds the number of
iterations (each iteration consumes at least one byte). -/

def chunksOfAux : Nat → List Nat → List (List Nat)
  | _, [] => []
  | 0, _ :: _ => []
  | fuel + 1, d :: rest =>
    (d :: rest).take PREFERRED_CHUNK_SIZE ::
      chunksOfAux fuel ((d :: rest).drop PREFERRED_CHUNK_SIZE)

/-- The sequence of reads performed by the `while` loop of `split_file` on a
file whose content is `data`. -/
def chunksOf (data : List Nat) : List (List Nat) := chunksOfAux data.length data

theorem chunksOfAux_nil (fuel : Nat) : chunksOfAux fuel [] = [] := by
  cases fuel <;> rfl

theorem csPos : 0 < PREFERRED_CHUNK_SIZE := by decide

/-- Sizes of the chunks produced by the read loop: `len / c` full chunks of
size `c = PREFERRED_CHUNK_SIZE` followed by a final chunk of `len % c` bytes
when the remainder is non-zero. -/
theorem chunksOfAux_map_length :
    ∀ (fuel : Nat) (data : List Nat), data.length ≤ fuel →
    (chunksOfAux fuel data).map List.length =
      List.replicate (data.length / PREFERRED_CHUNK_SIZE) PREFERRED_CHUNK_SIZE
        ++ (if data.length % PREFERRED_CHUNK_SIZE = 0 then []
            else [data.length % PREFERRED_CHUNK_SIZE]) := by
  intro fuel
  induction fuel with
  | zero =>
    intro data hlen
    have hdata : data = [] := List.eq_nil_of_length_eq_zero (Nat.le_zero.mp hlen)
    subst hdata
    simp [chunksOfAux_nil]
  | succ fuel ih =>
    intro data hlen
    match data with
    | [] => simp [chunksOfAux_nil]
    | d :: rest =>
      have hCS : PREFERRED_CHUNK_SIZE = 8388608 := by rfl
      have hlen' : (d :: rest).length = rest.length + 1 := by simp
      by_cases hge : PREFERRED_CHUNK_SIZE ≤ (d :: rest).length
      · -- a full chunk is read, then the loop continues on the remainder
        have hdroplen : ((d :: rest).drop PREFERRED_CHUNK_SIZE).length
            = (d :: rest).length - PREFERRED_CHUNK_SIZE := by
          simp [List.length_drop]
        have hfuel : ((d :: rest).drop PREFERRED_CHUNK_SIZE).length ≤ fuel := by
          rw [hdroplen]
          omega
        have := ih ((d :: rest).drop PREFERRED_CHUNK_SIZE) hfuel
        rw [chunksOfAux, List.map_cons, this, hdroplen]
        have htake : ((d :: rest).take PREFERRED_CHUNK_SIZE).length
            = PREFERRED_CHUNK_SIZE := by
          simp [List.length_take]
          omega
        rw [htake]
        have hdiv : (d :: rest).length / PREFERRED_CHUNK_SIZE
            = ((d :: rest).length - PREFERRED_CHUNK_SIZE) / PREFERRED_CHUNK_SIZE + 1 := by
          rw [hCS] at hge ⊢
          omega
        have hmod : (d :: rest).length % PREFERRED_CHUNK_SIZE
            = ((d :: rest).length - PREFERRED_CHUNK_SIZE) % PREFERRED_CHUNK_SIZE := by
          rw [hCS] at hge ⊢
          omega
        rw [hdiv, hmod, List.replicate_succ, List.cons_append]
      · -- the final, short read
        have hlt : (d :: rest).length < PREFERRED_CHUNK_SIZE := Nat.lt_of_not_le hge
        have htake : (d :: rest).take PREFERRED_CHUNK_SIZE = d :: rest :=
          List.take_of_length_le (Nat.le_of_lt hlt)
        have hdrop : (d :: rest).drop PREFERRED_CHUNK_SIZE = [] :=
          List.drop_eq_nil_of_le (Nat.le_of_lt hlt)
        rw [chunksOfAux, htake, hdrop, chunksOfAux_nil]
        have hdiv : (d :: rest).length / PREFERRED_CHUNK_SIZE = 0 :=
          Nat.div_eq_of_lt hlt
        have hmod : (d :: rest).length % PREFERRED_CHUNK_SIZE = (d :: rest).length :=
          Nat.mod_eq_of_lt hlt
        rw [hdiv, hmod, List.replicate_zero, List.nil_append, if_neg (by simp)]
        simp

theorem chunksOf_map_length (data : List Nat) :
    (chunksOf data).map List.length =
      List.replicate (data.length / PREFERRED_CHUNK_SIZE) PREFERRED_CHUNK_SIZE
        ++ (if data.length % PREFERRED_CHUNK_SIZE = 0 then []
            else [data.length % PREFERRED_CHUNK_SIZE]) :=
  chunksOfAux_map_length data.length data (Nat.le_refl _)

/-- Concatenating the reads reconstructs the file. -/
theorem chunksOfAux_flatten :
    ∀ (fuel : Nat) (data : List Nat), data.length ≤ fuel →
    (chunksOfAux fuel data).flatten = data := by
  intro fuel
  induction fuel with
  | zero =>
    intro data hlen
    have hdata : data = [] := List.eq_nil_of_length_eq_zero (Nat.le_zero.mp hlen)
    subst hdata
    simp [chunksOfAux_nil]
  | succ fuel ih =>
    intro data hlen
    match data with
    | [] => simp [chunksOfAux_nil]
    | d :: rest =>
      have hCS : PREFERRED_CHUNK_SIZE = 8388608 := by rfl
      have hdroplen : ((d :: rest).drop PREFERRED_CHUNK_SIZE).length
          = (d :: rest).length - PREFERRED_CHUNK_SIZE := by
        simp [List.length_drop]
      have hfuel : ((d :: rest).drop PREFERRED_CHUNK_SIZE).length ≤ fuel := by
        rw [hdroplen]
        have : 0 < PREFERRED_CHUNK_SIZE := csPos
        omega
      rw [chunksOfAux, List.flatten_cons, ih _ hfuel, List.take_append_drop]

theorem chunksOf_flatten (data : List Nat) : (chunksOf data).flatten = data :=
  chunksOfAux_flatten data.length data (Nat.le_refl _)

/-- The number of reads the `split_file` loop performs is the ceiling of
`size / PREFERRED_CHUNK_SIZE`. -/
theorem chunksOf_length (data : List Nat) :
    (chunksOf data).length
      = (data.length + PREFERRED_CHUNK_SIZE - 1) / PREFERRED_CHUNK_SIZE := by
  have hcnt : (chunksOf data).length = ((chunksOf data).map List.length).length :=
    (List.length_map _ _).symm
  rw [hcnt, chunksOf_map_length data]
  have hCS : PREFERRED_CHUNK_SIZE = 8388608 := rfl
  by_cases h : data.length % PREFERRED_CHUNK_SIZE = 0
  · rw [if_pos h]
    simp only [List.length_append, List.length_replicate, List.length_nil]
    rw [hCS] at h ⊢
    omega
  · rw [if_neg h]
    simp only [List.length_append, List.length_replicate, List.length_cons,
      List.length_nil]
    rw [hCS] at h ⊢
    omega

/-! ## Part names

`split_file` names each part `f"{path.name}.part{i}"` and the client's
`join_file` recovers the index with `int(p.name.split(".part")[-1])`.
Names are embedded as `List Char`; `natChars` is Python's decimal rendering
`str(i)` and `digitsVal` is Python's decimal parse `int(s)` restricted to
digit strings. -/

def natChars (n : Nat) : List Char :=
  if n = 0 then ['0']
  else ((Nat.digits 10 n).reverse).map (fun d => Char.ofNat (d + 48))

def digitsVal (s : List Char) : Nat :=
  s.foldl (fun a c => 10 * a + (c.toNat - 48)) 0

/-- The separator `".part"` used in part file names. -/
def dotPart : List Char := ['.', 'p', 'a', 'r', 't']

/-- The suffix of `s` that follows the first occurrence of `".part"`, scanning
left to right, or `none` when `".part"` does not occur (the semantics of one
step of Python's `str.split`). -/
def afterFirst : List Char → Option (List Char)
  | [] => none
  | c :: rest =>
    if dotPart.isPrefixOf (c :: rest) then some ((c :: rest).drop dotPart.length)
    else afterFirst rest

/-- Iterating `afterFirst` to exhaustion yields the last element of Python's
`s.split(".part")` (with fuel bounding the number of iterations). -/
def lastSegAux : Nat → List Char → List Char
  | 0, s => s
  | fuel + 1, s =>
    match afterFirst s with
    | none => s
    | some t => lastSegAux fuel t

def lastSeg (s : List Char) : List Char := lastSegAux s.length s

/-- `int(p.name.split(".part")[-1])` from `join_file`
(`src/client/downloader.py`, line 43). -/
def partKey (s : List Char) : Nat := digitsVal (lastSeg s)

/-- The list of `(name, bytes)` parts written by `split_file`
(`src/server/chunk.py`, lines 14–28) for a file whose stored name is `name`
and whose content is `data`. -/
def splitFileParts (name : List Char) (data : List Nat) :
    List (List Char × List Nat) :=
  (chunksOf data).enum.map (fun p => (name ++ dotPart ++ natChars p.1, p.2))

/-- `join_file` (`src/client/downloader.py`, lines 40–48): sort the parts by
the integer suffix parsed after `".part"` and concatenate their contents.
The parts are supplied in arbitrary order, as `Path.iterdir` enumerates them
in filesystem order. -/
def joinFile (parts : List (List Char × List Nat)) : List Nat :=
  ((parts.insertionSort (fun a b => partKey a.1 ≤ partKey b.1)).map Prod.snd).flatten

/-! ### Decimal rendering and parsing lemmas -/

theorem chr_toNat {d : Nat} (hd : d < 10) : (Char.ofNat (d + 48)).toNat = d + 48 := by
  interval_cases d <;> decide

theorem chr_isDigit {d : Nat} (hd : d < 10) : (Char.ofNat (d + 48)).isDigit = true := by
  interval_cases d <;> decide

theorem natChars_isDigit (n : Nat) : ∀ c ∈ natChars n, c.isDigit = true := by
  intro c hc
  rw [natChars] at hc
  by_cases hn : n = 0
  · rw [if_pos hn] at hc
    simp at hc
    subst hc
    decide
  · rw [if_neg hn] at hc
    rcases List.mem_map.mp hc with ⟨d, hd, rfl⟩
    exact chr_isDigit (Nat.digits_lt_base (by norm_num) (List.mem_reverse.mp hd))

theorem foldl_decimal (l : List Nat) (hl : ∀ d ∈ l, d < 10) (a : Nat) :
    (l.map (fun d => Char.ofNat (d + 48))).foldl
        (fun a c => 10 * a + (c.toNat - 48)) a
      = l.foldl (fun a d => 10 * a + d) a := by
  induction l generalizing a with
  | nil => rfl
  | cons d l ih =>
    have hd : d < 10 := hl d (List.mem_cons_self d l)
    simp only [List.map_cons, List.foldl_cons, chr_toNat hd, Nat.add_sub_cancel]
    exact ih (fun x hx => hl x (List.mem_cons_of_mem d hx)) _

theorem foldl_reverse_ofDigits (l : List Nat) (a : Nat) :
    l.reverse.foldl (fun a d => 10 * a + d) a
      = a * 10 ^ l.length + Nat.ofDigits 10 l := by
  induction l generalizing a with
  | nil => simp [Nat.ofDigits]
  | cons d l ih =>
    rw [List.reverse_cons, List.foldl_append, List.foldl_cons, List.foldl_nil, ih,
      Nat.ofDigits_cons]
    simp only [List.length_cons, pow_succ]
    ring

/-- Python's `int(str(n)) = n` for the decimal rendering used in part names. -/
theorem digitsVal_natChars (n : Nat) : digitsVal (natChars n) = n := by
  by_cases hn : n = 0
  · subst hn
    decide
  · rw [natChars, if_neg hn, digitsVal,
      foldl_decimal ((Nat.digits 10 n).reverse)
        (fun d hd => Nat.digits_lt_base (by norm_num) (List.mem_reverse.mp hd)) 0,
      foldl_reverse_ofDigits]
    simp [Nat.ofDigits_digits]

/-! ### `".part"` suffix extraction lemmas -/

theorem isDigit_ne_dot {c : Char} (hc : c.isDigit = true) : ('.' : Char) ≠ c := by
  intro h
  rw [← h] at hc
  exact absurd hc (by decide)

theorem not_isPrefixOf_digit {c : Char} (hc : c.isDigit = true) (rest : List Char) :
    dotPart.isPrefixOf (c :: rest) = false := by
  have hne : (('.' : Char) == c) = false := beq_eq_false_iff_ne.mpr (isDigit_ne_dot hc)
  rw [show dotPart = '.' :: ['p', 'a', 'r', 't'] from rfl, List.isPrefixOf, hne,
    Bool.false_and]

theorem afterFirst_all_digits (s : List Char) (hs : ∀ c ∈ s, c.isDigit = true) :
    afterFirst s = none := by
  induction s with
  | nil => rfl
  | cons c rest ih =>
    rw [afterFirst]
    rw [not_isPrefixOf_digit (hs c (List.mem_cons_self c rest)) rest]
    simp only [Bool.false_eq_true, if_false]
    exact ih (fun x hx => hs x (List.mem_cons_of_mem c hx))

theorem afterFirst_digits_append (pre : List Char) (hpre : ∀ c ∈ pre, c.isDigit = true)
    (t : List Char) :
    afterFirst (pre ++ dotPart ++ t) = some t := by
  induction pre with
  | nil =>
    have hpref : dotPart.isPrefixOf ('.' :: 'p' :: 'a' :: 'r' :: 't' :: t) = true := by
      rw [List.isPrefixOf_iff_prefix]
      exact ⟨t, rfl⟩
    rw [List.nil_append,
      show dotPart ++ t = '.' :: 'p' :: 'a' :: 'r' :: 't' :: t from rfl,
      afterFirst, hpref]
    simp [dotPart]
  | cons c rest ih =>
    rw [List.cons_append, List.cons_append, afterFirst]
    rw [not_isPrefixOf_digit (hpre c (List.mem_cons_self c rest)) _]
    simp only [Bool.false_eq_true, if_false]
    exact ih (fun x hx => hpre x (List.mem_cons_of_mem c hx))

theorem lastSegAux_eval {s t : List Char} (fuel : Nat) (hfuel : 1 ≤ fuel)
    (h1 : afterFirst s = some t) (h2 : afterFirst t = none) :
    lastSegAux fuel s = t := by
  match fuel with
  | 0 => omega
  | fuel + 1 =>
    simp only [lastSegAux, h1]
    match fuel with
    | 0 => rfl
    | fuel + 1 => simp only [lastSegAux, h2]

/-- The key `join_file` computes for the part name `<name>.part<i>` of a file
whose stored name is a decimal string is `i` itself. -/
theorem partKey_partName (name : List Char) (hname : ∀ c ∈ name, c.isDigit = true)
    (i : Nat) : partKey (name ++ dotPart ++ natChars i) = i := by
  rw [partKey, lastSeg]
  have h1 : afterFirst (name ++ dotPart ++ natChars i) = some (natChars i) :=
    afterFirst_digits_append name hname (natChars i)
  have h2 : afterFirst (natChars i) = none :=
    afterFirst_all_digits _ (natChars_isDigit i)
  have hfuel : 1 ≤ (name ++ dotPart ++ natChars i).length := by
    simp [dotPart]
    omega
  rw [lastSegAux_eval _ hfuel h1 h2]
  exact digitsVal_natChars i

/-! ### Stable sorting by pairwise-distinct keys

Python's `sorted` is a stable sort; when the sort keys of the elements are
pairwise distinct, every correct sort of any reordering of a list produces
the same output.  `List.insertionSort` models the sort. -/

theorem insertionSort_eq_of_perm_nodup {α κ : Type} (key : α → κ) (le : κ → κ → Prop)
    [DecidableRel le]
    (htot : ∀ a b, le a b ∨ le b a) (htr : ∀ a b c, le a b → le b c → le a c)
    (hanti : ∀ a b, le a b → le b a → a = b)
    {l₁ l₂ : List α} (hp : l₁.Perm l₂) (hnd : (l₂.map key).Nodup) :
    l₁.insertionSort (fun a b => le (key a) (key b))
      = l₂.insertionSort (fun a b => le (key a) (key b)) := by
  haveI : IsTotal α (fun a b => le (key a) (key b)) := ⟨fun a b => htot _ _⟩
  haveI : IsTrans α (fun a b => le (key a) (key b)) := ⟨fun a b c => htr _ _ _⟩
  have hperm₁ : (l₁.insertionSort (fun a b => le (key a) (key b))).Perm l₂ :=
    (List.perm_insertionSort _ l₁).trans hp
  have hperm₂ : (l₂.insertionSort (fun a b => le (key a) (key b))).Perm l₂ :=
    List.perm_insertionSort _ l₂
  have hnd' : l₂.Pairwise (fun a b => key a ≠ key b) := List.pairwise_map.mp hnd
  have hnd₁ : (l₁.insertionSort (fun a b => le (key a) (key b))).Pairwise
      (fun a b => key a ≠ key b) :=
    (hperm₁.pairwise_iff (fun h => Ne.symm h)).mpr hnd'
  have hnd₂ : (l₂.insertionSort (fun a b => le (key a) (key b))).Pairwise
      (fun a b => key a ≠ key b) :=
    (hperm₂.pairwise_iff (fun h => Ne.symm h)).mpr hnd'
  have hs₁ := List.sorted_insertionSort (fun a b => le (key a) (key b)) l₁
  have hs₂ := List.sorted_insertionSort (fun a b => le (key a) (key b)) l₂
  haveI : IsAntisymm α (fun a b => le (key a) (key b) ∧ key a ≠ key b) :=
    ⟨fun a b h1 h2 => absurd (hanti _ _ h1.1 h2.1) h1.2⟩
  exact List.eq_of_perm_of_sorted (hperm₁.trans hperm₂.symm)
    (List.Pairwise.and hs₁ hnd₁) (List.Pairwise.and hs₂ hnd₂)

/-- The `join_file` sort keys of the parts written by `split_file` for a file
with a decimal stored name are exactly `0, 1, …, n-1` in write order. -/
theorem splitFileParts_map_key (name : List Char)
    (hname : ∀ c ∈ name, c.isDigit = true) (data : List Nat) :
    (splitFileParts name data).map (fun p => partKey p.1)
      = List.range (chunksOf data).length := by
  rw [splitFileParts, List.map_map]
  have hfun : ((fun p : List Char × List Nat => partKey p.1) ∘
      (fun p : Nat × List Nat => (name ++ dotPart ++ natChars p.1, p.2)))
      = Prod.fst := by
    funext p
    exact partKey_partName name hname p.1
  rw [hfun, List.enum_map_fst]

/-- **C7.** `split_file` (`src/server/chunk.py`, lines 14–28) on a file of
`s` bytes writes exactly `⌈s / 8 MiB⌉` parts, named `<storedname>.part<i>`
for `i ∈ [0, ⌈s / 8 MiB⌉)` in write order; every part is exactly
`PREFERRED_CHUNK_SIZE = 8 MiB` long except possibly the last, whose length
is `s mod 8 MiB` when that is non-zero and `8 MiB` otherwise (expressed
below as `s / 8MiB` full-size parts followed by one part of `s mod 8MiB`
bytes exactly when the remainder is non-zero). -/
theorem split_file_layout (name : List Char) (data : List Nat) :
    (splitFileParts name data).length
        = (data.length + PREFERRED_CHUNK_SIZE - 1) / PREFERRED_CHUNK_SIZE
      ∧ (splitFileParts name data).map Prod.fst
        = (List.range (splitFileParts name data).length).map
            (fun i => name ++ dotPart ++ natChars i)
      ∧ (splitFileParts name data).map (fun p => p.2.length)
        = List.replicate (data.length / PREFERRED_CHUNK_SIZE) PREFERRED_CHUNK_SIZE
            ++ (if data.length % PREFERRED_CHUNK_SIZE = 0 then []
                else [data.length % PREFERRED_CHUNK_SIZE]) := by
  have hlen : (splitFileParts name data).length = (chunksOf data).length := by
    rw [splitFileParts, List.length_map, List.enum_length]
  have hsizes : (splitFileParts name data).map (fun p => p.2.length)
      = (chunksOf data).map List.length := by
    rw [splitFileParts, List.map_map]
    have : ((fun p : List Char × List Nat => p.2.length) ∘
        (fun p : Nat × List Nat => (name ++ dotPart ++ natChars p.1, p.2)))
        = (List.length ∘ Prod.snd) := rfl
    rw [this, ← List.map_map, List.enum_map_snd]
  refine ⟨?_, ?_, ?_⟩
  · -- part count is the ceiling of size / 8 MiB
    rw [hlen]
    exact chunksOf_length data
  · -- part names carry the write index after ".part"
    rw [hlen, splitFileParts, List.map_map]
    have : ((Prod.fst : List Char × List Nat → List Char) ∘
        (fun p : Nat × List Nat => (name ++ dotPart ++ natChars p.1, p.2)))
        = ((fun i => name ++ dotPart ++ natChars i) ∘ Prod.fst) := rfl
    rw [this, ← List.map_map, List.enum_map_fst]
  · rw [hsizes]
    exact chunksOf_map_length data

/-- **C6.** Splitting any byte sequence with `split_file` and re-joining the
parts with `join_file` — which sorts by the integer parsed after `".part"`,
not by lexicographic name order — reconstructs the original byte sequence,
for any enumeration order of the parts directory (`Path.iterdir` order is
arbitrary, hence the permutation hypothesis).  The stored names produced by
the manifest builder (`src/server/manifest.py`, line 84) are decimal
strings, which is the `hname` hypothesis.  The statement quantifies over
all sizes, so it covers files with ten or more parts, where lexicographic
name order would differ from integer order. -/
theorem join_split_roundtrip (name : List Char)
    (hname : ∀ c ∈ name, c.isDigit = true) (data : List Nat)
    (parts : List (List Char × List Nat))
    (hperm : parts.Perm (splitFileParts name data)) :
    joinFile parts = data := by
  have hkeys := splitFileParts_map_key name hname data
  have hnd : ((splitFileParts name data).map (fun p => partKey p.1)).Nodup := by
    rw [hkeys]
    exact List.nodup_range _
  rw [joinFile]
  have hsorteq : parts.insertionSort (fun a b => partKey a.1 ≤ partKey b.1)
      = (splitFileParts name data).insertionSort
          (fun a b => partKey a.1 ≤ partKey b.1) :=
    insertionSort_eq_of_perm_nodup (fun p => partKey p.1) (· ≤ ·)
      Nat.le_total (fun _ _ _ => Nat.le_trans) (fun _ _ => Nat.le_antisymm)
      hperm hnd
  have hsorted : List.Sorted (fun a b => partKey a.1 ≤ partKey b.1)
      (splitFileParts name data) := by
    have hlt : ((splitFileParts name data).map (fun p => partKey p.1)).Pairwise
        (· < ·) := by
      rw [hkeys]
      exact List.pairwise_lt_range _
    exact (List.pairwise_map.mp hlt).imp Nat.le_of_lt
  rw [hsorteq, hsorted.insertionSort_eq]
  have hsnd : (splitFileParts name data).map Prod.snd = chunksOf data := by
    rw [splitFileParts, List.map_map]
    have : ((Prod.snd : List Char × List Nat → List Nat) ∘
        (fun p : Nat × List Nat => (name ++ dotPart ++ natChars p.1, p.2)))
        = Prod.snd := rfl
    rw [this, List.enum_map_snd]
  rw [hsnd]
  exact chunksOf_flatten data

/-- Witness for C6 at a concrete input: a three-byte file with stored name
`"0"` splits into the single part `"0.part0"`, and `join_file` restores the
original bytes. -/
theorem join_split_roundtrip_witness :
    joinFile [(['0', '.', 'p', 'a', 'r', 't', '0'], [1, 2, 3])] = [1, 2, 3] :=
  join_split_roundtrip ['0'] (by decide) [1, 2, 3]
    [(['0', '.', 'p', 'a', 'r', 't', '0'], [1, 2, 3])] (by decide)

/-! ## `sha256_folder` (`src/server/manifest.py`, lines 23-30, duplicated in
`src/client/downloader.py`, lines 30-37)

The function iterates `sorted(path.rglob("*"))`, filters regular files, and
feeds each file's bytes into one SHA-256 state.  SHA-256 is not interpreted:
the model is the exact byte stream fed into the hash state, since two calls
produce equal digests exactly when they consume equal streams.  A directory
entry is listed by `rglob` but contributes no bytes.  Python sorts `Path`
values by their tuple of components (`PurePath` comparison uses the parsed
parts), each component compared as a string by code point, so the sort key
is the component list under componentwise lexicographic order.  Strings are
embedded as `List Char`. -/

structure FsEntry where
  path : List (List Char)
  isFile : Bool
  content : List Nat
deriving DecidableEq

/-- Python string `<`: strict lexicographic comparison by code point. -/
def strLt : List Char -> List Char -> Bool
  | [], [] => false
  | [], _ :: _ => true
  | _ :: _, [] => false
  | c :: cs, d :: ds => if c < d then true else if c = d then strLt cs ds else false

theorem strLt_irrefl : forall a, strLt a a = false
  | [] => rfl
  | c :: cs => by
    rw [strLt, if_neg (lt_irrefl c), if_pos rfl]
    exact strLt_irrefl cs

theorem strLt_trichotomy : forall a b, strLt a b = true \/ a = b \/ strLt b a = true
  | [], [] => Or.inr (Or.inl rfl)
  | [], _ :: _ => Or.inl rfl
  | _ :: _, [] => Or.inr (Or.inr rfl)
  | c :: cs, d :: ds => by
    rcases lt_trichotomy c d with h | h | h
    · left
      rw [strLt, if_pos h]
    · subst h
      rcases strLt_trichotomy cs ds with h2 | h2 | h2
      · left
        rw [strLt, if_neg (lt_irrefl c), if_pos rfl, h2]
      · right; left
        rw [h2]
      · right; right
        rw [strLt, if_neg (lt_irrefl c), if_pos rfl, h2]
    · right; right
      rw [strLt, if_pos h]

theorem strLt_asymm : forall a b, strLt a b = true -> strLt b a = true -> False
  | [], [], h, _ => by simp [strLt] at h
  | [], _ :: _, _, h => by simp [strLt] at h
  | _ :: _, [], h, _ => by simp [strLt] at h
  | c :: cs, d :: ds, h1, h2 => by
    rw [strLt] at h1 h2
    by_cases hcd : c < d
    · rw [if_neg (lt_asymm hcd)] at h2
      by_cases hdc : d = c
      · exact absurd (hdc ▸ hcd) (lt_irrefl _)
      · rw [if_neg hdc] at h2
        exact absurd h2 (by simp)
    · by_cases hcd' : c = d
      · subst hcd'
        rw [if_neg hcd, if_pos rfl] at h1 h2
        exact strLt_asymm cs ds h1 h2
      · rw [if_neg hcd, if_neg hcd'] at h1
        exact absurd h1 (by simp)

theorem strLt_trans :
    forall a b c, strLt a b = true -> strLt b c = true -> strLt a c = true
  | [], _, _ :: _, _, _ => rfl
  | [], [], [], _, h => by simp [strLt] at h
  | [], _ :: _, [], _, h => by simp [strLt] at h
  | _ :: _, [], _, h, _ => by simp [strLt] at h
  | _ :: _, _ :: _, [], _, h => by simp [strLt] at h
  | a :: as, b :: bs, c :: cs, h1, h2 => by
    rw [strLt] at h1 h2 ⊢
    by_cases hab : a < b
    · by_cases hbc : b < c
      · rw [if_pos (lt_trans hab hbc)]
      · by_cases hbc' : b = c
        · subst hbc'
          rw [if_pos hab]
        · rw [if_neg hbc, if_neg hbc'] at h2
          exact absurd h2 (by simp)
    · by_cases hab' : a = b
      · subst hab'
        rw [if_neg hab, if_pos rfl] at h1
        by_cases hbc : a < c
        · rw [if_pos hbc]
        · by_cases hbc' : a = c
          · subst hbc'
            rw [if_neg hbc, if_pos rfl] at h2 ⊢
            exact strLt_trans as bs cs h1 h2
          · rw [if_neg hbc, if_neg hbc'] at h2
            exact absurd h2 (by simp)
      · rw [if_neg hab, if_neg hab'] at h1
        exact absurd h1 (by simp)

/-- Python tuple/list comparison (non-strict): the order `sorted` applies to
`Path` values, on their component lists. -/
def listLex : List (List Char) -> List (List Char) -> Bool
  | [], _ => true
  | _ :: _, [] => false
  | a :: as, b :: bs =>
    if strLt a b then true else if a = b then listLex as bs else false

theorem listLex_total : forall a b, listLex a b = true \/ listLex b a = true
  | [], _ => Or.inl rfl
  | _ :: _, [] => Or.inr rfl
  | a :: as, b :: bs => by
    rw [listLex, listLex]
    rcases strLt_trichotomy a b with h | h | h
    · left
      rw [if_pos h]
    · subst h
      have hirr : ¬ strLt a a = true := by
        rw [strLt_irrefl]
        simp
      rw [if_neg hirr, if_pos rfl, if_neg hirr, if_pos rfl]
      exact listLex_total as bs
    · right
      rw [if_pos h]

theorem listLex_trans :
    forall a b c, listLex a b = true -> listLex b c = true -> listLex a c = true
  | [], _, _, _, _ => rfl
  | _ :: _, [], _, h, _ => by simp [listLex] at h
  | _ :: _, _ :: _, [], _, h => by simp [listLex] at h
  | a :: as, b :: bs, c :: cs, h1, h2 => by
    rw [listLex] at h1 h2 ⊢
    by_cases hab : strLt a b = true
    · by_cases hbc : strLt b c = true
      · rw [if_pos (strLt_trans a b c hab hbc)]
      · by_cases hbc' : b = c
        · subst hbc'
          rw [if_pos hab]
        · rw [if_neg hbc, if_neg hbc'] at h2
          exact absurd h2 (by simp)
    · by_cases hab' : a = b
      · subst hab'
        rw [if_neg hab, if_pos rfl] at h1
        by_cases hbc : strLt a c = true
        · rw [if_pos hbc]
        · by_cases hbc' : a = c
          · subst hbc'
            rw [if_neg hbc, if_pos rfl] at h2 ⊢
            exact listLex_trans as bs cs h1 h2
          · rw [if_neg hbc, if_neg hbc'] at h2
            exact absurd h2 (by simp)
      · rw [if_neg hab, if_neg hab'] at h1
        exact absurd h1 (by simp)

theorem listLex_antisymm :
    forall a b, listLex a b = true -> listLex b a = true -> a = b
  | [], [], _, _ => rfl
  | [], _ :: _, _, h => by simp [listLex] at h
  | _ :: _, [], h, _ => by simp [listLex] at h
  | a :: as, b :: bs, h1, h2 => by
    rw [listLex] at h1 h2
    by_cases hab : strLt a b = true
    · have hba : strLt b a = true -> False := strLt_asymm a b hab
      rw [if_neg (fun h => hba h)] at h2
      by_cases hba' : b = a
      · subst hba'
        rw [strLt_irrefl] at hab
        exact absurd hab (by simp)
      · rw [if_neg hba'] at h2
        exact absurd h2 (by simp)
    · by_cases hab' : a = b
      · subst hab'
        rw [if_neg hab, if_pos rfl] at h1 h2
        rw [listLex_antisymm as bs h1 h2]
      · rw [if_neg hab, if_neg hab'] at h1
        exact absurd h1 (by simp)

/-- The byte stream `sha256_folder` feeds into its SHA-256 state: regular
file contents in the order produced by `sorted(path.rglob("*"))`, i.e.
sorted by the component list of each path. -/
def folderStream (entries : List FsEntry) : List Nat :=
  (((entries.insertionSort (fun a b => listLex a.path b.path = true)).filter
      (fun e => e.isFile)).map (fun e => e.content)).flatten

/-- Python string `<=`. -/
def strLe (a b : List Char) : Bool := strLt a b || a == b

/-- Modelled from the spec (§4.1): the reference stream whose order "sorts
their paths lexicographically as strings (byte-wise on the normalized
form)" — the `/`-joined path strings compared as plain strings. -/
def folderStreamSpec (entries : List FsEntry) : List Nat :=
  (((entries.insertionSort (fun a b =>
      strLe (List.intercalate ['/'] a.path) (List.intercalate ['/'] b.path)
        = true)).filter
      (fun e => e.isFile)).map (fun e => e.content)).flatten

/-- **C4, counterexample.** A tree with a regular file `a!b` and a directory
`a` containing a file `c`: `Path` ordering puts `a/c` before `a!b`
(componentwise, `"a" < "a!b"`), while plain path-string ordering puts
`"a!b"` before `"a/c"` (`'!' < '/'` by code point), so the byte stream the
code hashes differs from the string-sorted reference stream the claim
asserts it matches. -/
theorem folder_hash_string_sort_cex :
    folderStream
        [⟨[['a', '!', 'b']], true, [1]⟩, ⟨[['a']], false, []⟩,
          ⟨[['a'], ['c']], true, [2]⟩]
      ≠ folderStreamSpec
        [⟨[['a', '!', 'b']], true, [1]⟩, ⟨[['a']], false, []⟩,
          ⟨[['a'], ['c']], true, [2]⟩] := by
  decide

/-- **C4, amended.** The tree hash is the SHA-256 of the concatenation of
the regular files' contents in ascending *componentwise* (path-parts tuple)
lexicographic order of their paths — not plain path-string order; any two
enumerations of the same tree (paths are distinct on a filesystem) feed the
identical byte stream into the hash, hence yield the same digest. -/
theorem folder_stream_order_independent (l₁ l₂ : List FsEntry)
    (hperm : l₁.Perm l₂) (hnd : (l₂.map FsEntry.path).Nodup) :
    folderStream l₁ = folderStream l₂ := by
  rw [folderStream, folderStream,
    insertionSort_eq_of_perm_nodup FsEntry.path (fun p q => listLex p q = true)
      listLex_total listLex_trans listLex_antisymm hperm hnd]

/-- Witness for the amended C4 at a concrete input: two enumerations of a
two-file tree produce the same hash stream. -/
theorem folder_stream_order_independent_witness :
    folderStream [⟨[['a']], true, [5]⟩, ⟨[['b']], true, [6]⟩]
      = folderStream [⟨[['b']], true, [6]⟩, ⟨[['a']], true, [5]⟩] :=
  folder_stream_order_independent
    [⟨[['a']], true, [5]⟩, ⟨[['b']], true, [6]⟩]
    [⟨[['b']], true, [6]⟩, ⟨[['a']], true, [5]⟩] (by decide) (by decide)

/-! ## `_download_stream` (`src/client/downloader.py`, lines 60–79)

The function opens the destination for writing (deleting any previous file
first, so the destination starts out present and empty), then iterates
`r.iter_content(1 MiB)`.  Before writing each read it checks the
cancellation token and `return`s when the token is set.  The outcome is
modelled as the result (`ok` for normal completion, `cancelled` for the
early return the caller observes through the set token) together with the
destination file: `some bytes` when a file with those bytes is on disk,
`none` when no file exists.  The response body is the list of reads
`chunks`; the token is modelled as becoming set at read index `cancelFrom`
(and staying set), or never when `cancelFrom = none`.  `contentLength` is
the `Content-Length` the response declares; the byte-progress callback and
transport errors (`raise_for_status`, before the loop) are outside these
claims. -/

inductive DlResult
  | ok
  | cancelled
deriving DecidableEq

structure DlOutcome where
  result : DlResult
  file : Option (List Nat)
deriving DecidableEq

/-- `cancel_event.is_set()` at read iteration `i`. -/
def cancelSet : Option Nat → Nat → Bool
  | none, _ => false
  | some j, i => j ≤ i

def downloadStreamAux (cancelFrom : Option Nat) :
    Nat → List Nat → List (List Nat) → DlOutcome
  | _, written, [] => ⟨DlResult.ok, some written⟩
  | i, written, c :: rest =>
    if cancelSet cancelFrom i then ⟨DlResult.cancelled, some written⟩
    else downloadStreamAux cancelFrom (i + 1) (written ++ c) rest

def downloadStream (contentLength : Option Nat) (chunks : List (List Nat))
    (cancelFrom : Option Nat) : DlOutcome :=
  downloadStreamAux cancelFrom 0 [] chunks

/-- **C2, counterexample.** A download whose token is observed set at the
second read returns the cancelled outcome with the partially written
destination file still on disk (holding the first read), not deleted: the
claim that `_download_stream` deletes the partial file before returning is
false of the code. -/
theorem download_cancel_keeps_partial_file_cex :
    (downloadStream none [[7], [8]] (some 1)).result = DlResult.cancelled
      ∧ (downloadStream none [[7], [8]] (some 1)).file = some [7]
      ∧ (downloadStream none [[7], [8]] (some 1)).file ≠ none := by
  decide

theorem downloadStreamAux_cancel :
    ∀ (chunks : List (List Nat)) (j i : Nat) (written : List Nat),
    j < chunks.length →
    downloadStreamAux (some (i + j)) i written chunks
      = ⟨DlResult.cancelled, some (written ++ (chunks.take j).flatten)⟩ := by
  intro chunks
  induction chunks with
  | nil =>
    intro j i written hj
    simp at hj
  | cons c rest ih =>
    intro j i written hj
    match j with
    | 0 =>
      rw [downloadStreamAux]
      have hc : cancelSet (some (i + 0)) i = true := by simp [cancelSet]
      rw [hc]
      simp
    | j' + 1 =>
      rw [downloadStreamAux]
      have hc : cancelSet (some (i + (j' + 1))) i = false := by
        simp only [cancelSet, decide_eq_false_iff_not]
        omega
      rw [hc]
      simp only [Bool.false_eq_true, if_false]
      have harg : i + 1 + j' = i + (j' + 1) := by omega
      have hrec := ih j' (i + 1) (written ++ c)
        (Nat.lt_of_succ_lt_succ (by simpa using hj))
      rw [harg] at hrec
      rw [hrec, List.take_succ_cons, List.flatten_cons, List.append_assoc]

/-- **C2, amended.** When the cancellation token is observed set during the
read loop (at read `j` of the body), `_download_stream` returns the
cancelled outcome immediately but leaves the partially written destination
file in place, holding exactly the bytes written so far; the partial file
is deleted only later by the caller `_run_pipeline`, which wipes the whole
staging directory on cancellation (`src/client/downloader.py`, lines
445–448). -/
theorem download_stream_cancel (len : Option Nat) (chunks : List (List Nat))
    (j : Nat) (hj : j < chunks.length) :
    downloadStream len chunks (some j)
      = ⟨DlResult.cancelled, some ((chunks.take j).flatten)⟩ := by
  have h := downloadStreamAux_cancel chunks j 0 [] hj
  rw [Nat.zero_add] at h
  rw [downloadStream, h, List.nil_append]

/-- Witness for the amended C2 at a concrete input: cancellation observed at
the second of three reads leaves the first read's bytes on disk. -/
theorem download_stream_cancel_witness :
    downloadStream (some 99) [[1], [2], [3]] (some 1)
      = ⟨DlResult.cancelled, some [1]⟩ :=
  (download_stream_cancel (some 99) [[1], [2], [3]] 1 (by decide)).trans (by decide)

/-- **C3, counterexample.** A response declaring `Content-Length: 5` whose
body delivers a single byte: `_download_stream` returns the ok outcome and
keeps the destination file — it raises no truncation error and deletes
nothing, because the code never compares the written byte count against the
declared length. -/
theorem download_truncated_reports_ok_cex :
    (downloadStream (some 5) [[9]] none).result = DlResult.ok
      ∧ (downloadStream (some 5) [[9]] none).file = some [9] := by
  decide

theorem downloadStreamAux_no_cancel :
    ∀ (chunks : List (List Nat)) (i : Nat) (written : List Nat),
    downloadStreamAux none i written chunks
      = ⟨DlResult.ok, some (written ++ chunks.flatten)⟩ := by
  intro chunks
  induction chunks with
  | nil =>
    intro i written
    rw [downloadStreamAux]
    simp
  | cons c rest ih =>
    intro i written
    rw [downloadStreamAux]
    have hc : cancelSet none i = false := rfl
    rw [hc]
    simp only [Bool.false_eq_true, if_false]
    rw [ih, List.flatten_cons, List.append_assoc]

/-- **C3, amended.** `_download_stream` performs no `Content-Length`
verification at all: for every declared length, an uncancelled download of
any body returns the ok outcome with the destination holding exactly the
received bytes, even when their count differs from the declared length.  A
truncated chunk is caught only later, by `process_chunk`'s hash check, when
the chunk's manifest entry carries a hash. -/
theorem download_stream_ignores_content_length (len : Option Nat)
    (chunks : List (List Nat)) :
    downloadStream len chunks none = ⟨DlResult.ok, some chunks.flatten⟩ := by
  rw [downloadStream, downloadStreamAux_no_cancel, List.nil_append]

/-! ## `process_chunk` integrity guard (`src/client/downloader.py`,
lines 95–100)

```python
expected_hash = chunk_meta.get("hash")
actual_hash = sha256_file(chunk_path_p)
if expected_hash and actual_hash != expected_hash:
    raise RuntimeError(...)
```

`chunk_meta.get("hash")` is `none` when the key is absent or null, and
`some s` for a string value; Python truthiness makes `None` and `""` falsy.
`Except.error` models the raise; `Except.ok` means control falls through to
`tarfile.extractall`. -/

def truthyHash : Option String → Bool
  | none => false
  | some s => !s.isEmpty

def chunkHashGuard (expected : Option String) (actual : String) :
    Except String Unit :=
  match expected with
  | some h =>
    if !h.isEmpty && actual != h then Except.error "Chunk hash mismatch"
    else Except.ok ()
  | none => Except.ok ()

/-- **C9.**  For every chunk whose metadata carries no truthy hash value
(key absent, null, or the empty string), `process_chunk` performs no
chunk-level integrity verification: whatever the downloaded archive's bytes
hash to, the guard raises nothing and control proceeds directly to
extraction. -/
theorem no_hash_no_verification (expected : Option String)
    (hfalsy : truthyHash expected = false) (actual : String) :
    chunkHashGuard expected actual = Except.ok () := by
  match expected with
  | none => rfl
  | some h =>
    rw [truthyHash] at hfalsy
    rw [chunkHashGuard, hfalsy, Bool.false_and]
    simp

/-- Witness for C9 at a concrete input: an empty-string hash entry passes
the guard for an arbitrary actual digest. -/
theorem no_hash_no_verification_witness :
    chunkHashGuard (some "") "deadbeef" = Except.ok () :=
  no_hash_no_verification (some "") (by decide) "deadbeef"

/-! ## `DownloadManager` (`src/client/downloader.py`, lines 153–236)

The manager holds, under one lock, the status registry `_statuses` and the
cancellation-token store `_cancel_events` (a token is `true` once set).
Dictionaries are embedded as association lists.  The per-game staging
directory tree is carried in the state as well: `start` and `stop` never
touch it synchronously (staging is wiped only inside the pipeline thread),
which is what the frame claims are about.  Float progress fields are
modelled as `Rat`; the claims only copy and compare them.  The pair
returned by `managerStart` additionally records whether a new pipeline
thread was spawned. -/

structure DownloadStatus where
  id : String
  download : Rat := 0
  process : Rat := 0
  status : String := "idle"
  error : String := ""
  installed : Bool := false
  bytes_total : Nat := 0
  bytes_done : Nat := 0
deriving DecidableEq

structure ManagerState where
  statuses : List (String × DownloadStatus)
  cancelEvents : List (String × Bool)
  staging : List (String × Bool)
deriving DecidableEq

def dictGet {β : Type} (m : List (String × β)) (k : String) : Option β :=
  List.lookup k m

def dictSet {β : Type} (m : List (String × β)) (k : String) (v : β) :
    List (String × β) :=
  if (List.lookup k m).isSome then
    m.map (fun p => if p.1 == k then (k, v) else p)
  else m ++ [(k, v)]

/-- `DownloadManager.start` (lines 192–215): under the lock, return at once
when the current status is `"downloading"` or `"processing"`; otherwise
register a fresh (unset) cancellation token and a fresh `"downloading"`
status record, and spawn the pipeline thread. -/
def managerStart (st : ManagerState) (gameId : String) : ManagerState × Bool :=
  match dictGet st.statuses gameId with
  | some cur =>
    if cur.status = "downloading" ∨ cur.status = "processing" then (st, false)
    else
      ({ st with
          cancelEvents := dictSet st.cancelEvents gameId false,
          statuses := dictSet st.statuses gameId
            { id := gameId, status := "downloading" } }, true)
  | none =>
      ({ st with
          cancelEvents := dictSet st.cancelEvents gameId false,
          statuses := dictSet st.statuses gameId
            { id := gameId, status := "downloading" } }, true)

/-- `DownloadManager.stop` (lines 217–221): set the game's cancellation
token when one is registered; otherwise fall through silently. -/
def managerStop (st : ManagerState) (gameId : String) : ManagerState :=
  match dictGet st.cancelEvents gameId with
  | some _ => { st with cancelEvents := dictSet st.cancelEvents gameId true }
  | none => st

/-- **C8.**  Calling `start` for a game id whose registered status is
`"downloading"` or `"processing"` changes nothing: the status registry, the
cancellation-token store and the staging tree are returned unchanged, and no
pipeline thread is started. -/
theorem start_idempotent (st : ManagerState) (gameId : String)
    (cur : DownloadStatus) (hcur : dictGet st.statuses gameId = some cur)
    (hstatus : cur.status = "downloading" ∨ cur.status = "processing") :
    managerStart st gameId = (st, false) := by
  rw [managerStart, hcur]
  exact if_pos hstatus

/-- Witness for C8 at a concrete input: a second `start` for a game already
`"downloading"` is a no-op. -/
theorem start_idempotent_witness :
    managerStart
        ⟨[("g", { id := "g", status := "downloading" })], [("g", false)],
          [("g", true)]⟩ "g"
      = (⟨[("g", { id := "g", status := "downloading" })], [("g", false)],
          [("g", true)]⟩, false) :=
  start_idempotent _ "g" { id := "g", status := "downloading" } (by rfl)
    (Or.inl rfl)

/-- **C10.**  `stop` for a game id with no registered cancellation token
(no job ever started, or already removed) is a total no-op: nothing is
raised and the whole manager state — status registry, token store and
staging — is returned unchanged. -/
theorem stop_no_token_noop (st : ManagerState) (gameId : String)
    (h : dictGet st.cancelEvents gameId = none) :
    managerStop st gameId = st := by
  rw [managerStop, h]

/-- Witness for C10 at a concrete input: stopping a game that never
registered a token leaves the state untouched. -/
theorem stop_no_token_noop_witness :
    managerStop ⟨[("g", { id := "g" })], [], []⟩ "h"
      = ⟨[("g", { id := "g" })], [], []⟩ :=
  stop_no_token_noop ⟨[("g", { id := "g" })], [], []⟩ "h" (by rfl)

/-! ## Chunk packer (`src/server/chunk.py`, module main, lines 76–221)

Manifest file entries carry a stored name, a byte size and a category
string.  The small pass folds over the small files in manifest order,
accumulating a batch and its cumulative size; when the size after appending
a file reaches `PREFERRED_CHUNK_SIZE` the batch is closed as a chunk at the
current `chunk_index` and the index advances.  After the loop, a non-empty
residual batch becomes a final chunk at the current index — and then
`chunk_index += 1` runs *unconditionally* (line 137), even when no residual
chunk was written.  The medium pass assigns `chunk_index + i` to the i-th
medium file, the large pass `chunk_index + i` to the i-th split part.  The
pool tasks complete in arbitrary order but each chunk entry carries its
preassigned index, and the manifest's `chunks` list is sorted by
`chunk_index` before serialization (line 216), so the sorted model below is
exact.  The parts the large pass enumerates with `rglob` come in
filesystem order; they are modelled in file order, which the claims — they
depend only on the indices — do not distinguish.  Tar bytes and chunk
hashes are opaque and omitted from the chunk records. -/

structure FileMeta where
  name : String
  size : Nat
  category : String
deriving DecidableEq

/-- A closed batch of the small pass: the index it was written at and the
files it contains. -/
structure SmallChunk where
  idx : Nat
  files : List FileMeta
deriving DecidableEq

/-- The small-pass loop (lines 95–137): arguments are the current
`chunk_index`, the accumulated batch, its cumulative size, and the
remaining small files; the result is the closed chunks and the value of
`chunk_index` after the unconditional post-loop increment. -/
def smallPass : Nat → List FileMeta → Nat → List FileMeta →
    List SmallChunk × Nat
  | idx, batch, _, [] =>
    (if batch.isEmpty then [] else [⟨idx, batch⟩], idx + 1)
  | idx, batch, size, f :: rest =>
    if PREFERRED_CHUNK_SIZE ≤ size + f.size then
      (⟨idx, batch ++ [f]⟩ :: (smallPass (idx + 1) [] 0 rest).1,
        (smallPass (idx + 1) [] 0 rest).2)
    else smallPass idx (batch ++ [f]) (size + f.size) rest

structure ChunkMeta where
  name : String
  chunk_index : Nat
  files : List String
  category : String
deriving DecidableEq

def chunkName (i : Nat) : String := "chunk_" ++ toString i ++ ".tar.xz"

def smallChunkMeta (c : SmallChunk) : ChunkMeta :=
  ⟨chunkName c.idx, c.idx, c.files.map (fun f => f.name), "small"⟩

/-- The number of parts `split_file` writes for a file of `s` bytes
(`partCount_splits` ties this to the `split_file` model). -/
def partCount (s : Nat) : Nat :=
  (s + PREFERRED_CHUNK_SIZE - 1) / PREFERRED_CHUNK_SIZE

theorem partCount_splits (data : List Nat) :
    partCount data.length = (chunksOf data).length := by
  rw [partCount, chunksOf_length]

def mediumChunks (idx : Nat) (ms : List FileMeta) : List ChunkMeta :=
  ms.enum.map (fun p =>
    ⟨chunkName (idx + p.1), idx + p.1, [p.2.name], "medium"⟩)

def largePartNames (ls : List FileMeta) : List String :=
  (ls.map (fun f =>
    (List.range (partCount f.size)).map
      (fun i => f.name ++ ".part" ++ toString i))).flatten

def largeChunks (idx : Nat) (parts : List String) : List ChunkMeta :=
  parts.enum.map (fun p => ⟨chunkName (idx + p.1), idx + p.1, [p.2], "large"⟩)

/-- The `chunks` list of the manifest the packer writes, for the given
manifest file entries. -/
def packChunks (files : List FileMeta) : List ChunkMeta :=
  ((smallPass 0 [] 0 (files.filter (fun f => f.category == "small"))).1.map
        smallChunkMeta
      ++ mediumChunks
          (smallPass 0 [] 0 (files.filter (fun f => f.category == "small"))).2
          (files.filter (fun f => f.category == "medium"))
      ++ largeChunks
          ((smallPass 0 [] 0 (files.filter (fun f => f.category == "small"))).2
            + (files.filter (fun f => f.category == "medium")).length)
          (largePartNames (files.filter (fun f => f.category == "large")))).insertionSort
    (fun a b => a.chunk_index ≤ b.chunk_index)

/-- **C1** fails on the code.  With no small files the small-pass loop body
never runs, the residual batch is empty so no residual chunk is written,
yet `chunk_index += 1` (line 137) still runs: a manifest with one medium
file and nothing else records exactly one chunk, at index 1.  Its index set
`{1}` is not `{0} = {0, …, len(chunks)-1}`: the indices have a gap. -/
theorem chunk_index_gap_cex :
    (packChunks [⟨"0", 9000000, "medium"⟩]).map ChunkMeta.chunk_index = [1]
      ∧ (packChunks [⟨"0", 9000000, "medium"⟩]).map ChunkMeta.chunk_index
        ≠ List.range (packChunks [⟨"0", 9000000, "medium"⟩]).length := by
  decide

/-- Sum of the mapped values over `dropLast` never exceeds the sum over the
whole list. -/
theorem sum_dropLast_le {α : Type} (l : List α) (f : α → Nat) :
    (l.dropLast.map f).sum ≤ (l.map f).sum := by
  match l with
  | [] => simp
  | a :: as =>
    have h := List.dropLast_append_getLast (l := a :: as) (by simp)
    conv_rhs => rw [← h]
    rw [List.map_append, List.sum_append]
    simp

theorem dropLast_cons_subset {α : Type} (x : α) (xs : List α) :
    (x :: xs).dropLast ⊆ x :: xs.dropLast := by
  match xs with
  | [] => simp
  | y :: ys =>
    rw [List.dropLast_cons₂]
    exact fun a ha => ha

/-- Loop invariant of the small pass: with the accumulator holding `batch`
of cumulative size `size < PREFERRED_CHUNK_SIZE`, the chunks it emits
partition `batch ++ fs` in order; every chunk except the last reaches the
threshold; and in every chunk the files before the closing one sum to less
than the threshold (the batch is closed exactly when the size after an
append reaches it). -/
theorem smallPass_spec :
    ∀ (fs : List FileMeta) (idx size : Nat) (batch : List FileMeta),
    size = (batch.map FileMeta.size).sum →
    size < PREFERRED_CHUNK_SIZE →
    (((smallPass idx batch size fs).1.map SmallChunk.files).flatten
        = batch ++ fs)
      ∧ (∀ c ∈ ((smallPass idx batch size fs).1).dropLast,
          PREFERRED_CHUNK_SIZE ≤ (c.files.map FileMeta.size).sum)
      ∧ (∀ c ∈ (smallPass idx batch size fs).1,
          (c.files.dropLast.map FileMeta.size).sum < PREFERRED_CHUNK_SIZE) := by
  intro fs
  induction fs with
  | nil =>
    intro idx size batch hsz hlt
    rw [smallPass]
    by_cases hb : batch.isEmpty
    · rw [if_pos hb]
      have : batch = [] := List.isEmpty_iff.mp hb
      subst this
      exact ⟨rfl, by simp, by simp⟩
    · rw [if_neg hb]
      refine ⟨by simp, by simp, ?_⟩
      intro c hc
      simp only [List.mem_singleton] at hc
      subst hc
      calc (batch.dropLast.map FileMeta.size).sum
          ≤ (batch.map FileMeta.size).sum := sum_dropLast_le batch FileMeta.size
        _ = size := hsz.symm
        _ < PREFERRED_CHUNK_SIZE := hlt
  | cons f rest ih =>
    intro idx size batch hsz hlt
    rw [smallPass]
    by_cases hcl : PREFERRED_CHUNK_SIZE ≤ size + f.size
    · rw [if_pos hcl]
      obtain ⟨ih1, ih2, ih3⟩ := ih (idx + 1) 0 [] rfl csPos
      refine ⟨?_, ?_, ?_⟩
      · simp only [List.map_cons, List.flatten_cons, ih1, List.nil_append]
        simp
      · intro c hc
        have hc' := dropLast_cons_subset _ _ hc
        rcases List.mem_cons.mp hc' with hhead | htail
        · subst hhead
          simp only [List.map_append, List.sum_append, List.map_cons,
            List.sum_cons, List.map_nil, List.sum_nil]
          omega
        · exact ih2 c htail
      · intro c hc
        rcases List.mem_cons.mp hc with hhead | htail
        · subst hhead
          simp only [List.dropLast_concat]
          rw [← hsz]
          exact hlt
        · exact ih3 c htail
    · rw [if_neg hcl]
      obtain ⟨ih1, ih2, ih3⟩ := ih idx (size + f.size) (batch ++ [f])
        (by simp [hsz]) (Nat.lt_of_not_le hcl)
      refine ⟨?_, ih2, ih3⟩
      rw [ih1]
      simp

/-- **C5.**  In every run of the small-file packing pass, the produced
chunks partition the small files in manifest order (a non-empty residual
batch becomes the final chunk); every produced chunk except possibly the
last has a cumulative uncompressed payload — the sum of the contained
files' manifest sizes — of at least `PREFERRED_CHUNK_SIZE = 8 MiB`; and a
batch is closed exactly when the cumulative size reaches the threshold: in
every chunk, the files before the closing one sum to less than 8 MiB. -/
theorem small_pass_density (fs : List FileMeta) :
    (((smallPass 0 [] 0 fs).1.map SmallChunk.files).flatten = fs)
      ∧ (∀ c ∈ ((smallPass 0 [] 0 fs).1).dropLast,
          PREFERRED_CHUNK_SIZE ≤ (c.files.map FileMeta.size).sum)
      ∧ (∀ c ∈ (smallPass 0 [] 0 fs).1,
          (c.files.dropLast.map FileMeta.size).sum < PREFERRED_CHUNK_SIZE) := by
  have h := smallPass_spec fs 0 0 [] rfl csPos
  simpa using h

/-- Witness for C5 at a concrete input: an 8 MiB file followed by a 1-byte
file packs into two chunks; the first (the only non-final one) meets the
8 MiB threshold. -/
theorem small_pass_density_witness :
    PREFERRED_CHUNK_SIZE ≤
      (((⟨0, [⟨"0", 8388608, "small"⟩]⟩ : SmallChunk).files.map
          FileMeta.size).sum) :=
  (small_pass_density [⟨"0", 8388608, "small"⟩, ⟨"1", 1, "small"⟩]).2.1
    ⟨0, [⟨"0", 8388608, "small"⟩]⟩ (by decide)

end GameThing
